import Mathlib
set_option synthInstance.maxSize 1000

/-!
A shallow embedding of the Coral interpreter (`coral.py`): the term model,
the pattern matcher, the single-step rewriter, the reduction driver, the
tokenizer, the parser, rule loading, and textual rendering, together with
theorems about them.  Each definition mirrors the Python function of the
same (or closely related) name; deviations forced by the embedding are
recorded in the doc comments.
-/

namespace Coral

/-- Terms of the Coral language (class `Term` in the source, whose `type`
field is one of the tags `ATOM`, `VAR`, `GROUP`).  For an atom or a
variable the `val` field holds the name; for an application group it holds
the ordered list of children. -/
inductive Term where
  | atom (s : String)
  | var (s : String)
  | group (ts : List Term)

mutual

/-- Decidable structural equality of terms: same variant, atoms and
variables compared by name, groups compared element-wise. -/
def Term.decEq : (a b : Term) → Decidable (a = b)
  | .atom a, .atom b =>
      match String.decEq a b with
      | isTrue h => isTrue (by rw [h])
      | isFalse h => isFalse (fun hh => h (by injection hh))
  | .atom _, .var _ => isFalse (fun h => Term.noConfusion h)
  | .atom _, .group _ => isFalse (fun h => Term.noConfusion h)
  | .var _, .atom _ => isFalse (fun h => Term.noConfusion h)
  | .var a, .var b =>
      match String.decEq a b with
      | isTrue h => isTrue (by rw [h])
      | isFalse h => isFalse (fun hh => h (by injection hh))
  | .var _, .group _ => isFalse (fun h => Term.noConfusion h)
  | .group _, .atom _ => isFalse (fun h => Term.noConfusion h)
  | .group _, .var _ => isFalse (fun h => Term.noConfusion h)
  | .group a, .group b =>
      match Term.decEqList a b with
      | isTrue h => isTrue (by rw [h])
      | isFalse h => isFalse (fun hh => h (by injection hh))

/-- Decidable equality of lists of terms, element-wise. -/
def Term.decEqList : (as bs : List Term) → Decidable (as = bs)
  | [], [] => isTrue rfl
  | [], _ :: _ => isFalse (fun h => List.noConfusion h)
  | _ :: _, [] => isFalse (fun h => List.noConfusion h)
  | a :: as, b :: bs =>
      match Term.decEq a b, Term.decEqList as bs with
      | isTrue h1, isTrue h2 => isTrue (by rw [h1, h2])
      | isFalse h1, _ => isFalse (fun h => by injection h with e1 e2; exact h1 e1)
      | isTrue _, isFalse h2 => isFalse (fun h => by injection h with e1 e2; exact h2 e2)

end

instance : DecidableEq Term := Term.decEq

/-- A variable-binding table (the Python `dict` called `table`), modelled as
an association list from variable name to bound term; fresh bindings are
consed on the front, and lookup is by first occurrence. -/
abbrev Table := List (String × Term)

/-- A rule set (the Python `dict` called `rules`): a map from head key to
the ordered list of rules `(lhs, rhs)` stored under that key, modelled as
an association list. -/
abbrev Rules := List (String × List (Term × Term))

/-- `rules[key]` together with the `key in rules` check: the list of rules
stored under `key`, or `[]` when the key is absent. -/
def rulesGet (rules : Rules) (key : String) : List (Term × Term) :=
  (List.lookup key rules).getD []

mutual

/-- Creates a deep clone of a term (`clone` in the source).  In the
value-semantics embedding a clone is equal to its original. -/
def clone : Term → Term
  | .atom s => .atom s
  | .var s => .var s
  | .group ts => .group (cloneList ts)

/-- `[clone(child) for child in term.val]`. -/
def cloneList : List Term → List Term
  | [] => []
  | t :: ts => clone t :: cloneList ts

end

mutual

/-- Replaces all variables with clones of their respective terms from the
table (`replace` in the source).  The source raises `KeyError` when a
variable is unbound (behavior the spec flags as undefined, spec section 9);
the model keeps the variable node in that case. -/
def replace : Term → Table → Term
  | .atom s, _ => .atom s
  | .var v, tb => clone ((List.lookup v tb).getD (.var v))
  | .group ts, tb => .group (replaceList ts tb)

/-- `[replace(child, table) for child in term.val]`. -/
def replaceList : List Term → Table → List Term
  | [], _ => []
  | t :: ts, tb => replace t tb :: replaceList ts tb

end

/-- The Python `val` attribute of a `Term` object: a `str` for atoms and
variables, a `list` of child terms for groups. -/
inductive PyVal where
  | ofName (s : String)
  | ofList (ts : List Term)

/-- `term.val` as a Python value. -/
def Term.pyval : Term → PyVal
  | .atom s => .ofName s
  | .var s => .ofName s
  | .group ts => .ofList ts

/-- Python `==` between a subject term's `val` attribute (a `str` or a
`list`) and a bound `Term` object taken from the table, as evaluated by the
line `return term.val == table[pattern.val]` of `match`.  The left operand
is a `str` or a `list` while the right operand is a `Term` instance; class
`Term` defines no `__eq__`, so CPython falls back to the default
identity-based comparison across distinct types and the expression is
always `False`. -/
def pyValEqTerm (_v : PyVal) (_bound : Term) : Bool := false

mutual

/-- Attempts to match a term against a pattern (`match` in the source;
renamed because `match` is a Lean keyword).  The source returns a `bool`
and mutates `table` in place; the model returns the updated table on
success and `none` on failure.  The partially extended table that the
source leaves behind on failure is never read by any caller (`reduce`
allocates a fresh table per rule), so the model discards it. -/
def matchT : Term → Term → Table → Option Table
  | .atom p, t, tb =>
      match t with
      | .atom s => if p = s then some tb else none
      | _ => none
  | .var v, t, tb =>
      match List.lookup v tb with
      | some bound => if pyValEqTerm t.pyval bound then some tb else none
      | none => some ((v, t) :: tb)
  | .group ps, t, tb =>
      match t with
      | .group ts =>
          if ps.length = ts.length then matchList ps ts tb else none
      | _ => none

/-- The loop `for a, b in zip(pattern.val, term.val)`; like `zip` it stops
at the shorter list (the caller has already checked the lengths agree). -/
def matchList : List Term → List Term → Table → Option Table
  | [], _, tb => some tb
  | _ :: _, [], tb => some tb
  | p :: ps, t :: ts, tb =>
      match matchT p t tb with
      | some tb' => matchList ps ts tb'
      | none => none

end

/-- The atom-subject arm of `reduce`: try each rule under the atom's key in
order and return a clone of the first matching rule's right-hand side. -/
def tryRulesAtom : List (Term × Term) → Term → Option Term
  | [], _ => none
  | (lhs, rhs) :: rest, t =>
      if (matchT lhs t []).isSome then some (clone rhs) else tryRulesAtom rest t

/-- The group-subject arm of `reduce`: try each rule under the head key in
order with a fresh table; on the first match return
`replace(clone(rhs), table)`. -/
def tryRulesGroup : List (Term × Term) → Term → Option Term
  | [], _ => none
  | (lhs, rhs) :: rest, t =>
      match matchT lhs t [] with
      | some tb => some (replace (clone rhs) tb)
      | none => tryRulesGroup rest t

/-- Attempts to reduce a term with the given rule set; returns the new term
on success and `none` otherwise (`reduce` in the source).  The `print`
built-in's output effect is not modelled; only the returned value (the
second child `term.val[1]`) is.  `args.headD (.atom "")` is `term.val[1]`,
read under the guard `len(term.val) == 2`. -/
def reduce (t : Term) (rules : Rules) : Option Term :=
  match t with
  | .var _ => none
  | .atom a => tryRulesAtom (rulesGet rules a) (.atom a)
  | .group [] => none
  | .group (.var _ :: _) => none
  | .group (.group _ :: _) => none
  | .group (.atom a :: args) =>
      if a = "print" ∧ args.length = 1 then some (args.headD (.atom ""))
      else tryRulesGroup (rulesGet rules a) (.group (.atom a :: args))

/-- A position in a term: the list of child indices from the root. -/
abbrev Path := List Nat

/-- The subterm of `t` at position `p`, if the position exists. -/
def getAt : Term → Path → Option Term
  | t, [] => some t
  | .group ts, i :: p =>
      match ts[i]? with
      | some c => getAt c p
      | none => none
  | _, _ :: _ => none

/-- Replaces the subterm of `t` at position `p` (the in-place assignment
`term.val = res.val; term.type = res.type` of `full_reduce`, expressed
functionally); an invalid position leaves the term unchanged. -/
def setAt : Term → Path → Term → Term
  | _, [], r => r
  | .group ts, i :: p, r =>
      match ts[i]? with
      | some c => .group (ts.set i (setAt c p r))
      | none => .group ts
  | t, _ :: _, _ => t

/-- One iteration of the `while not queue.empty()` loop of `full_reduce`.
The Python queue holds references into the shared mutable tree; the model
holds positions (paths) into the current root, which is faithful because
the queue is reset to the root whenever the tree is mutated.  Returns
`Sum.inl` with the fully reduced term when the queue is empty, and
`Sum.inr` with the updated root and queue otherwise.  On a successful
rewrite the queue is discarded and the root is re-enqueued; on failure at a
group, every child position is enqueued (`for child in term.val`). -/
def fullReduceStep (rules : Rules) (root : Term) (queue : List Path) :
    Sum Term (Term × List Path) :=
  match queue with
  | [] => Sum.inl root
  | p :: rest =>
      match getAt root p with
      | none => Sum.inr (root, rest)
      | some u =>
          match reduce u rules with
          | some r => Sum.inr (setAt root p r, [[]])
          | none =>
              match u with
              | .group ts =>
                  Sum.inr (root, rest ++ (List.range ts.length).map (fun i => p ++ [i]))
              | _ => Sum.inr (root, rest)

/-- Iterates `fullReduceStep` with explicit fuel.  `full_reduce` need not
terminate (rule sets can diverge), so the model returns `none` when the
fuel runs out. -/
def fullReduceAux (rules : Rules) : Nat → Term → List Path → Option Term
  | 0, _, _ => none
  | fuel + 1, root, queue =>
      match fullReduceStep rules root queue with
      | Sum.inl t => some t
      | Sum.inr (root', queue') => fullReduceAux rules fuel root' queue'

/-- Reduces the term until no more rules can be applied (`full_reduce` in
the source), starting from the queue holding just the root position. -/
def full_reduce (rules : Rules) (fuel : Nat) (t : Term) : Option Term :=
  fullReduceAux rules fuel t [[]]

/-- Tokens (classes `Atom`, `Variable`, `Symbol`, `NewLine` in the source).
Source positions (file, line, column) are carried by the Python tokens only
for error messages and are not modelled. -/
inductive Tok where
  | atom (s : String)
  | var (s : String)
  | lpar
  | rpar
  | eq
  | nl
deriving DecidableEq

/-- Whether a token is an end-of-line token. -/
def Tok.isNl : Tok → Bool
  | .nl => true
  | _ => false

/-- The whitespace set `{' ', '\n', '\t'}`. -/
def isWs (c : Char) : Bool := c = ' ' || c = '\n' || c = '\t'

/-- The symbol set `{'(', ')', '=', '#'}`. -/
def isSymCh (c : Char) : Bool := c = '(' || c = ')' || c = '=' || c = '#'

/-- A word character: not whitespace and not a symbol (`non_word` is the
union of the two sets). -/
def isWordChar (c : Char) : Bool := !isWs c && !isSymCh c

/-- Classifies a completed word: a word whose first character is uppercase
becomes a `Variable` token, any other word an `Atom` token. -/
def mkWord (s : String) : Tok :=
  match s.data with
  | c :: _ => if c.isUpper then Tok.var s else Tok.atom s
  | [] => Tok.atom s

/-- Emits the pending word run (if non-empty) as a token in front of the
following tokens: a maximal run of word characters ends exactly where a
non-word character (or the end of the line) is reached. -/
def flushWord (word : List Char) (rest : List Tok) : List Tok :=
  match word with
  | [] => rest
  | _ :: _ => mkWord (String.mk word) :: rest

/-- Tokenizes one line of input (`next_token` iterated as in `tokenize`),
with the run of word characters read so far carried in `word` (the source
instead reads each maximal word run in one slice; carrying the run keeps
the recursion structural).  Whitespace is skipped; `#` discards the rest of
the line; `(`, `)`, `=` become symbol tokens; a maximal run of word
characters becomes an `Atom` or `Variable` token via `mkWord`.  The source
may emit an end-of-line token for trailing whitespace or a trailing comment
before the physical end of line; every consumer treats consecutive
end-of-line tokens like a single one, so the model folds them into the
terminating newline that `tokenizeLine` appends. -/
def scanAux : List Char → List Char → List Tok
  | [], word => flushWord word []
  | c :: cs, word =>
      if isWordChar c then scanAux cs (word ++ [c])
      else
        flushWord word
          (if c = '#' then []
           else if c = '(' then Tok.lpar :: scanAux cs []
           else if c = ')' then Tok.rpar :: scanAux cs []
           else if c = '=' then Tok.eq :: scanAux cs []
           else scanAux cs [])

/-- Tokenizes one line, starting with no pending word. -/
def scanLine (cs : List Char) : List Tok := scanAux cs []

/-- Tokenizes a one-line character stream with the final end-of-line token
appended (`tokenize` on the single-line streams fed to it by the REPL). -/
def tokenizeLine (s : String) : List Tok := scanLine s.data ++ [Tok.nl]

/-- Parse modes of `parse_term` (`LEFT`, `RIGHT`, `INPUT` in the source). -/
inductive Mode where
  | left
  | right
  | input
deriving DecidableEq

/-- A parse error (the source's `SyntaxError`).  The source attaches the
offending token's position and text; the model records only the offending
token, and `atEnd` stands for the source's `unexpected(tokens[-1])` raised
by the end-of-parse checks (the model's suffix-passing style no longer has
the original token list in hand there; no theorem inspects error
contents). -/
inductive PErr where
  | unexpected (t : Tok)
  | atEnd
deriving DecidableEq

/-- Decidable equality for `Except` results, so that concrete parser runs
can be checked by `decide`. -/
instance {e a : Type} [DecidableEq e] [DecidableEq a] : DecidableEq (Except e a)
  | .ok x, .ok y =>
      if h : x = y then isTrue (by rw [h])
      else isFalse (fun hh => h (by injection hh))
  | .ok _, .error _ => isFalse (fun h => Except.noConfusion h)
  | .error _, .ok _ => isFalse (fun h => Except.noConfusion h)
  | .error x, .error y =>
      if h : x = y then isTrue (by rw [h])
      else isFalse (fun hh => h (by injection hh))

/-- The checks and group simplification after `parse_term`'s loop: fail if
a parenthesis is unclosed or the top-level group is empty; collapse a
single-child top-level group to its child; otherwise return the group.
`rest` is the unconsumed token suffix (the source returns the index `i`;
the model returns the tokens from that index on, which carries the same
information). -/
def finalize (chain : List (List Term)) (group : List Term) (rest : List Tok) :
    Except PErr (Term × List Tok) :=
  if !chain.isEmpty || group.isEmpty then .error .atEnd
  else
    match group with
    | [t] => .ok (t, rest)
    | _ => .ok (.group group, rest)

/-- The token loop of `parse_term`.  `chain` holds, for each enclosing
group, the children accumulated before the currently open subgroup (the
source instead appends the in-progress group object to its parent
immediately and mutates it; popping re-attaches the finished group, which
is what the `parent ++ [Term.group group]` in the close-parenthesis case
expresses).  The dispatch order is the source's: an atom is always
appended; any other token in `left` mode with an empty current group is an
error; then variables (rejected in `input` mode), end-of-line, `=`, `(`,
`)` as in the source. -/
def parseAux (mode : Mode) : List Tok → List (List Term) → List Term →
    Except PErr (Term × List Tok)
  | [], chain, group => finalize chain group []
  | tok :: rest, chain, group =>
      match tok with
      | .atom s => parseAux mode rest chain (group ++ [Term.atom s])
      | _ =>
          if mode = .left && group.isEmpty then .error (.unexpected tok)
          else
            match tok with
            | .var s =>
                if mode = .input then .error (.unexpected tok)
                else parseAux mode rest chain (group ++ [Term.var s])
            | .nl =>
                if chain.isEmpty && !(mode = .left) then
                  finalize chain group (tok :: rest)
                else if chain.isEmpty then .error (.unexpected tok)
                else parseAux mode rest chain group
            | .eq =>
                if chain.isEmpty && mode = .left then
                  finalize chain group (tok :: rest)
                else .error (.unexpected tok)
            | .lpar => parseAux mode rest (group :: chain) []
            | .rpar =>
                if chain.isEmpty || group.isEmpty then .error (.unexpected tok)
                else
                  match chain with
                  | parent :: chain' =>
                      parseAux mode rest chain' (parent ++ [Term.group group])
                  | [] => .error (.unexpected tok)
            | .atom _ => .error (.unexpected tok)

/-- Parses a single term from a token list in the given mode (`parse_term`
in the source), starting with an empty chain and an empty group. -/
def parse_term (tokens : List Tok) (mode : Mode) : Except PErr (Term × List Tok) :=
  parseAux mode tokens [] []

/-- The head key of a rule's left-hand side: the atom's name, or the name
of the first child of an application (`lhs.val if is_atom(lhs) else
lhs.val[0].val`).  The branches returning the name of a variable or `""`
are unreachable for left-hand sides produced by `left`-mode parsing, which
forces the first element to be an atom; the corresponding Python expression
would crash there. -/
def ruleKey : Term → String
  | .atom s => s
  | .var s => s
  | .group (.atom s :: _) => s
  | .group (.var s :: _) => s
  | .group _ => ""

/-- Adds a rule under its key, preserving insertion order within the key
(`rules[key].append((lhs, rhs))`, or a fresh singleton list when the key is
absent). -/
def addRule (rules : Rules) (key : String) (r : Term × Term) : Rules :=
  match rules with
  | [] => [(key, [r])]
  | (k, rs) :: rest =>
      if k = key then (k, rs ++ [r]) :: rest else (k, rs) :: addRule rest key r

/-- The loop of `parse_rules`: skip end-of-line tokens, parse a `left`
term, skip the `=` token (`i += 1`), parse a `right` term, skip the
end-of-line token, and add the rule; stop when the tokens are exhausted.  A
parse error aborts the loop; the error carries the rule set built so far,
which is the state the source's in-place dict mutation leaves behind when
the exception propagates.  The fuel argument only bounds the loop; each
iteration consumes at least one token, so the fuel chosen by `parse_rules`
can never run out. -/
def parseRulesAux : Nat → List Tok → Rules → Except (PErr × Rules) Rules
  | 0, _, rules => .error (.atEnd, rules)
  | fuel + 1, tokens, rules =>
      let ts := tokens.dropWhile Tok.isNl
      if ts.isEmpty then .ok rules
      else
        match parse_term ts .left with
        | .error e => .error (e, rules)
        | .ok (lhs, rest1) =>
            match parse_term (rest1.drop 1) .right with
            | .error e => .error (e, rules)
            | .ok (rhs, rest2) =>
                parseRulesAux fuel (rest2.drop 1)
                  (addRule rules (ruleKey lhs) (lhs, rhs))

/-- Parses a set of rules and adds them to the rule set (`parse_rules` in
the source). -/
def parse_rules (tokens : List Tok) (rules : Rules) : Except (PErr × Rules) Rules :=
  parseRulesAux (tokens.length + 1) tokens rules

/-- Loads rules from an already tokenized file into the given rule set
(`load` in the source, after the file read and `tokenize` call; the
filename-extension handling and the `print(err)` effect are not modelled).
The first component is the function's return value (`None` on a syntax
error), the second the final state of the caller's rule set, which the
source mutates in place whether or not the error occurs. -/
def load (tokens : List Tok) (rules : Rules) : Option Rules × Rules :=
  match parse_rules tokens rules with
  | .ok r => (some r, r)
  | .error (_, r) => (none, r)

mutual

/-- The characters of a term's textual rendering (`Term.__str__`): the name
of an atom or variable; for a group, the children's renderings joined by
single spaces (`' '.join(map(str, self.val))`) between parentheses.  Every
group is parenthesized, including at the top level. -/
def renderChars : Term → List Char
  | .atom s => s.data
  | .var s => s.data
  | .group ts => '(' :: renderList ts ++ [')']

/-- `' '.join` over the rendered children. -/
def renderList : List Term → List Char
  | [] => []
  | [t] => renderChars t
  | t :: ts => renderChars t ++ ' ' :: renderList ts

end

/-- The textual rendering of a term as a string (`str(term)`). -/
def render (t : Term) : String := String.mk (renderChars t)

mutual

/-- The token list produced by tokenizing a term's rendering, described
recursively: a name token for a leaf, and the children's tokens between
parenthesis tokens for a group.  Used to relate the tokenizer, the parser
and the renderer. -/
def toks : Term → List Tok
  | .atom s => [Tok.atom s]
  | .var s => [Tok.var s]
  | .group ts => Tok.lpar :: toksList ts ++ [Tok.rpar]

/-- Concatenation of the children's token lists. -/
def toksList : List Term → List Tok
  | [] => []
  | t :: ts => toks t ++ toksList ts

end

/-- A valid atom name: non-empty, all characters word characters, and the
first character not uppercase — exactly the words the tokenizer turns into
`Atom` tokens (spec section 3, data model). -/
def validAtomName (s : String) : Bool :=
  match s.data with
  | [] => false
  | c :: cs => !c.isUpper && (c :: cs).all isWordChar

mutual

/-- A term conforming to the spec's data model and containing no variable:
atoms have valid names and applications are non-empty. -/
def wfInput : Term → Bool
  | .atom s => validAtomName s
  | .var _ => false
  | .group ts => !ts.isEmpty && wfList ts

/-- All members conform. -/
def wfList : List Term → Bool
  | [] => true
  | t :: ts => wfInput t && wfList ts

end

mutual

/-- Every application group occurring in the term has at least one
child. -/
def groupsNonempty : Term → Bool
  | .atom _ => true
  | .var _ => true
  | .group ts => !ts.isEmpty && groupsNonemptyList ts

/-- All members satisfy `groupsNonempty`. -/
def groupsNonemptyList : List Term → Bool
  | [] => true
  | t :: ts => groupsNonempty t && groupsNonemptyList ts

end

/-- Whether the first character of a character list is not a word
character (vacuously true for the empty list): the condition under which a
word token ends exactly there. -/
def nonWordStart : List Char → Bool
  | [] => true
  | c :: _ => !isWordChar c

mutual

/-- Modelled from the spec: recursive bottom-up group simplification
(spec section 4.2) — a single-child group collapses to that child, and a
group whose head is itself a group is flattened by splicing the head's
children in front.  The source performs no such recursive simplification;
this definition exists to compare the spec's words with the code. -/
def specSimplify : Term → Term
  | .atom s => .atom s
  | .var s => .var s
  | .group ts =>
      match specSimplifyList ts with
      | [t] => t
      | .group hs :: rest => .group (hs ++ rest)
      | other => .group other

/-- Simplification mapped over the children. -/
def specSimplifyList : List Term → List Term
  | [] => []
  | t :: ts => specSimplify t :: specSimplifyList ts

end

mutual

/-- Modelled from the spec (claim C4): recursively, every application has
at least two children and no application has an application as its direct
head. -/
def specInvariant : Term → Bool
  | .atom _ => true
  | .var _ => true
  | .group ts =>
      decide (2 ≤ ts.length) &&
      (match ts with
       | .group _ :: _ => false
       | _ => true) &&
      specInvariantList ts

/-- The invariant checked on all members. -/
def specInvariantList : List Term → Bool
  | [] => true
  | t :: ts => specInvariant t && specInvariantList ts

end

/-- Structural induction over terms, with the inductive hypothesis given
for every member of a group's child list. -/
theorem Term.my_ind {P : Term → Prop} (ha : ∀ s, P (Term.atom s))
    (hv : ∀ s, P (Term.var s))
    (hg : ∀ ts, (∀ t ∈ ts, P t) → P (Term.group ts)) : ∀ t, P t :=
  fun t =>
    @Term.rec P (fun ts => ∀ t ∈ ts, P t) ha hv hg
      (fun _ h => absurd h (List.not_mem_nil _))
      (fun head tail ph pt t ht => by
        rcases List.mem_cons.mp ht with h | h
        · exact h ▸ ph
        · exact pt t h)
      t

/-- Folding the table through pattern-subject pairs propagates a failed
state. -/
theorem foldl_matchT_none (l : List (Term × Term)) :
    l.foldl (fun acc pr => acc.bind (fun tb => matchT pr.1 pr.2 tb)) none = none := by
  induction l with
  | nil => rfl
  | cons hd tl ih => exact ih

/-- The element-wise matching loop is the left fold of `matchT` over the
zipped pattern and subject children, threading the table. -/
theorem matchList_eq_foldl : ∀ (ps ts : List Term) (tb : Table),
    matchList ps ts tb =
      (ps.zip ts).foldl (fun acc pr => acc.bind (fun tb2 => matchT pr.1 pr.2 tb2))
        (some tb) := by
  intro ps
  induction ps with
  | nil => intro ts tb; cases ts <;> rfl
  | cons p ps ih =>
      intro ts tb
      cases ts with
      | nil => rfl
      | cons t ts =>
          simp only [List.zip_cons_cons, List.foldl_cons, Option.some_bind]
          cases h : matchT p t tb with
          | some tb' => simpa [matchList, h] using ih ts tb'
          | none => simp [matchList, h, foldl_matchT_none]

/-- C1 (amended): for Application pattern and subject, `match` succeeds iff
the pattern and the subject have exactly the same number of children and
the element-wise matches, threading the table left to right, all succeed;
a longer subject is rejected rather than partially matched. -/
theorem C1_theorem : ∀ (ps ts : List Term) (tb : Table),
    matchT (Term.group ps) (Term.group ts) tb =
      if ps.length = ts.length
      then (ps.zip ts).foldl (fun acc pr => acc.bind (fun tb2 => matchT pr.1 pr.2 tb2))
             (some tb)
      else none := by
  intro ps ts tb
  show (if ps.length = ts.length then matchList ps ts tb else none) = _
  split
  · exact matchList_eq_foldl ps ts tb
  · rfl

/-- C1 counterexample: the claim's partial-application reading fails on the
code.  For pattern `(f X)` and subject `(f a b)` we have
`len(pattern) = 2 ≤ 3 = len(subject)` and both element-wise matches
succeed, yet `match` returns failure because the code requires the lengths
to be equal. -/
theorem C1_counterexample :
    matchT (Term.group [Term.atom "f", Term.var "X"])
        (Term.group [Term.atom "f", Term.atom "a", Term.atom "b"]) [] = none ∧
    (2 : Nat) ≤ 3 ∧
    matchT (Term.atom "f") (Term.atom "f") [] = some [] ∧
    matchT (Term.var "X") (Term.atom "a") [] = some [("X", Term.atom "a")] :=
  ⟨by decide, by decide, by decide, by decide⟩

/-- C2: evaluation of the code at the failing input.  For pattern
`(f A A)` and subject `(f x x)` the claim (and the spec) require success:
the second occurrence of `A` is bound to `x`, which is structurally equal
to the subject child `x`.  The code instead evaluates
`term.val == table[pattern.val]`, comparing the string `"x"` with a `Term`
object, which is always `False`, so the whole match fails; a bound
variable can never match anything, as the second conjunct shows on the
identical binding. -/
theorem C2_theorem :
    matchT (Term.group [Term.atom "f", Term.var "A", Term.var "A"])
        (Term.group [Term.atom "f", Term.atom "x", Term.atom "x"]) [] = none ∧
    matchT (Term.var "A") (Term.atom "x") [("A", Term.atom "x")] = none :=
  ⟨by decide, by decide⟩

/-- Rules whose match fails are skipped by the first-match loop. -/
theorem tryRulesGroup_append (pre rs : List (Term × Term)) (t : Term)
    (h : ∀ r ∈ pre, matchT r.1 t [] = none) :
    tryRulesGroup (pre ++ rs) t = tryRulesGroup rs t := by
  induction pre with
  | nil => rfl
  | cons hd tl ih =>
      obtain ⟨lhs, rhs⟩ := hd
      have h0 : matchT lhs t [] = none := h (lhs, rhs) (List.mem_cons_self _ _)
      have ih' := ih (fun r hr => h r (List.mem_cons_of_mem _ hr))
      simpa [tryRulesGroup, h0] using ih'

/-- A pointwise bound gives the list-level conjunction of
`groupsNonempty`. -/
theorem groupsNonemptyList_of_forall : ∀ (l : List Term),
    (∀ x ∈ l, groupsNonempty x = true) → groupsNonemptyList l = true := by
  intro l
  induction l with
  | nil => intro _; rfl
  | cons hd tl ih =>
      intro h
      have h0 := h hd (List.mem_cons_self _ _)
      have h1 := ih (fun x hx => h x (List.mem_cons_of_mem _ hx))
      simp [groupsNonemptyList, h0, h1]

/-- The end-of-parse checks return a term all of whose groups are
non-empty, provided the accumulated children are such. -/
theorem finalize_gne (chain : List (List Term)) (group : List Term)
    (rest : List Tok) (hg : ∀ x ∈ group, groupsNonempty x = true)
    (t : Term) (rest' : List Tok)
    (h : finalize chain group rest = .ok (t, rest')) : groupsNonempty t = true := by
  unfold finalize at h
  split at h
  · exact Except.noConfusion h
  · rename_i hcond
    have hne : group.isEmpty = false := by
      cases hgrp : group.isEmpty
      · rfl
      · exact absurd (by simp [hgrp]) hcond
    split at h
    · rename_i x
      injection h with h1
      injection h1 with h1 h2
      exact h1 ▸ hg x (List.mem_cons_self _ _)
    · injection h with h1
      injection h1 with h1 h2
      subst h1
      simp [groupsNonempty, hne, groupsNonemptyList_of_forall group hg]

/-- Parser invariant: if every accumulated child and every child stored on
the chain contains only non-empty groups, so does the parsed result. -/
theorem parseAux_gne : ∀ (toksL : List Tok) (mode : Mode)
    (chain : List (List Term)) (group : List Term),
    (∀ x ∈ group, groupsNonempty x = true) →
    (∀ l ∈ chain, ∀ x ∈ l, groupsNonempty x = true) →
    ∀ t rest, parseAux mode toksL chain group = .ok (t, rest) →
    groupsNonempty t = true := by
  intro toksL
  induction toksL with
  | nil =>
      intro mode chain group hg hc t rest h
      exact finalize_gne chain group [] hg t rest h
  | cons tok toksL ih =>
      intro mode chain group hg hc t rest h
      have happend : ∀ (a : Term), groupsNonempty a = true →
          ∀ x ∈ group ++ [a], groupsNonempty x = true := by
        intro a ha x hx
        rcases List.mem_append.mp hx with hx | hx
        · exact hg x hx
        · rcases List.mem_singleton.mp hx with rfl
          exact ha
      cases tok with
      | atom s =>
          exact ih mode chain (group ++ [Term.atom s])
            (happend _ rfl) hc t rest h
      | var s =>
          simp only [parseAux] at h
          split at h
          · exact Except.noConfusion h
          · split at h
            · exact Except.noConfusion h
            · exact ih mode chain (group ++ [Term.var s])
                (happend _ rfl) hc t rest h
      | nl =>
          simp only [parseAux] at h
          split at h
          · exact Except.noConfusion h
          · split at h
            · exact finalize_gne chain group _ hg t rest h
            · split at h
              · exact Except.noConfusion h
              · exact ih mode chain group hg hc t rest h
      | eq =>
          simp only [parseAux] at h
          split at h
          · exact Except.noConfusion h
          · split at h
            · exact finalize_gne chain group _ hg t rest h
            · exact Except.noConfusion h
      | lpar =>
          simp only [parseAux] at h
          split at h
          · exact Except.noConfusion h
          · refine ih mode (group :: chain) [] (by simp) ?_ t rest h
            intro l hl x hx
            rcases List.mem_cons.mp hl with rfl | hl
            · exact hg x hx
            · exact hc l hl x hx
      | rpar =>
          simp only [parseAux] at h
          split at h
          · exact Except.noConfusion h
          · split at h
            · exact Except.noConfusion h
            · rename_i hcond2
              match chain, h with
              | parent :: chain', h =>
                refine ih mode chain' (parent ++ [Term.group group]) ?_
                  (fun l hl x hx => hc l (List.mem_cons_of_mem _ hl) x hx) t rest h
                refine fun x hx => ?_
                rcases List.mem_append.mp hx with hx | hx
                · exact hc parent (List.mem_cons_self _ _) x hx
                · rcases List.mem_singleton.mp hx with rfl
                  have hne : group.isEmpty = false := by
                    cases hgrp : group.isEmpty
                    · rfl
                    · exact absurd (by simp [hgrp]) hcond2
                  simp [groupsNonempty, hne, groupsNonemptyList_of_forall group hg]

/-- C4 (amended): every Term returned by `parse_term` (in any mode)
satisfies, recursively at every subterm, that no Application is empty.
The parser performs no recursive simplification: a nested single-child
Application may appear in its output (for example parsing `f (x)`), an
Application may have an Application as its direct head (for example
parsing `(f x) y`), and only the top-level group, when it consists of
exactly one child, is collapsed to that child. -/
theorem C4_theorem (tokens : List Tok) (mode : Mode) (t : Term) (rest : List Tok)
    (h : parse_term tokens mode = .ok (t, rest)) : groupsNonempty t = true :=
  parseAux_gne tokens mode [] [] (by simp) (by simp) t rest h

/-- C4 witness: parsing `(f x) y` succeeds with an application-headed
result, all of whose groups are non-empty. -/
theorem C4_witness :
    parse_term (tokenizeLine "(f x) y") .input
      = .ok (Term.group [Term.group [Term.atom "f", Term.atom "x"], Term.atom "y"],
          [Tok.nl]) ∧
    groupsNonempty
        (Term.group [Term.group [Term.atom "f", Term.atom "x"], Term.atom "y"])
      = true :=
  ⟨by decide, C4_theorem (tokenizeLine "(f x) y") .input _ [Tok.nl] (by decide)⟩

/-- C4 counterexample: parsing `f (x)` in `Input` mode returns
`(f (x))` whose nested group has a single child, violating the claimed
recursively-simplified invariant. -/
theorem C4_counterexample :
    parse_term (tokenizeLine "f (x)") .input
      = .ok (Term.group [Term.atom "f", Term.group [Term.atom "x"]], [Tok.nl]) ∧
    specInvariant (Term.group [Term.atom "f", Term.group [Term.atom "x"]]) = false :=
  ⟨by decide, by decide⟩

/-- C5 (amended): for an Application subject with atom head `a` (outside
the `print` built-in case), the rewriter applies the first rule under key
`a` whose match succeeds, and the replacement is `replace(clone(rhs), σ)`:
a deep clone of `rhs` with every variable replaced by a clone of its bound
term.  No suffix is appended — the matcher requires the pattern and the
subject to have equal length, so there is never an unmatched suffix — and
no group simplification is applied.  A rule whose left-hand side is an
Atom never matches an Application subject, so the claim's atom-lhs branch
never fires. -/
theorem C5_theorem :
    (∀ (rules : Rules) (a : String) (args : List Term)
        (pre post : List (Term × Term)) (lhs rhs : Term) (tb : Table),
        rulesGet rules a = pre ++ (lhs, rhs) :: post →
        (∀ r ∈ pre, matchT r.1 (Term.group (Term.atom a :: args)) [] = none) →
        matchT lhs (Term.group (Term.atom a :: args)) [] = some tb →
        ¬(a = "print" ∧ args.length = 1) →
        reduce (Term.group (Term.atom a :: args)) rules
          = some (replace (clone rhs) tb)) ∧
    (∀ (s : String) (ts : List Term) (tb : Table),
        matchT (Term.atom s) (Term.group ts) tb = none) := by
  constructor
  · intro rules a args pre post lhs rhs tb hget hpre hmatch hnp
    show (if a = "print" ∧ args.length = 1 then _
          else tryRulesGroup (rulesGet rules a) (Term.group (Term.atom a :: args))) = _
    rw [if_neg hnp, hget, tryRulesGroup_append pre _ _ hpre]
    simp [tryRulesGroup, hmatch]
  · intro s ts tb
    rfl

/-- C5 witness: with the single rule `f A = A b` and subject `f (g c)`,
the rewriter returns `replace(clone(A b), {A ↦ (g c)})`, namely
`((g c) b)` — unsimplified. -/
theorem C5_witness :
    rulesGet [("f", [(Term.group [Term.atom "f", Term.var "A"],
          Term.group [Term.var "A", Term.atom "b"])])] "f"
      = [] ++ (Term.group [Term.atom "f", Term.var "A"],
          Term.group [Term.var "A", Term.atom "b"]) :: [] ∧
    matchT (Term.group [Term.atom "f", Term.var "A"])
        (Term.group [Term.atom "f", Term.group [Term.atom "g", Term.atom "c"]]) []
      = some [("A", Term.group [Term.atom "g", Term.atom "c"])] ∧
    reduce (Term.group [Term.atom "f", Term.group [Term.atom "g", Term.atom "c"]])
        [("f", [(Term.group [Term.atom "f", Term.var "A"],
          Term.group [Term.var "A", Term.atom "b"])])]
      = some (replace (clone (Term.group [Term.var "A", Term.atom "b"]))
          [("A", Term.group [Term.atom "g", Term.atom "c"])]) :=
  ⟨by decide, by decide,
    C5_theorem.1 _ "f" _ [] [] (Term.group [Term.atom "f", Term.var "A"]) _ _
      (by decide) (fun r hr => absurd hr (List.not_mem_nil r)) (by decide) (by decide)⟩

/-- C5 counterexample: with the rule `f A = A b` and subject `f (g c)` the
code returns the un-simplified replacement `((g c) b)`, whereas the claim
requires the replacement to be group-simplified, which would flatten the
Application head and give `(g c b)`; the two differ. -/
theorem C5_counterexample :
    reduce (Term.group [Term.atom "f", Term.group [Term.atom "g", Term.atom "c"]])
        [("f", [(Term.group [Term.atom "f", Term.var "A"],
          Term.group [Term.var "A", Term.atom "b"])])]
      = some (Term.group [Term.group [Term.atom "g", Term.atom "c"], Term.atom "b"]) ∧
    specSimplify (Term.group [Term.group [Term.atom "g", Term.atom "c"], Term.atom "b"])
      = Term.group [Term.atom "g", Term.atom "c", Term.atom "b"] ∧
    Term.group [Term.group [Term.atom "g", Term.atom "c"], Term.atom "b"]
      ≠ Term.group [Term.atom "g", Term.atom "c", Term.atom "b"] :=
  ⟨by decide, by decide, by decide⟩

/-- C6 (amended): when the dequeued term is an Application on which the
single-step rewrite fails, the driver enqueues the positions of all of its
children, indices `0` through `len-1` — including the head at index 0. -/
theorem C6_theorem (rules : Rules) (root : Term) (p : Path) (rest : List Path)
    (ts : List Term) (hget : getAt root p = some (Term.group ts))
    (hred : reduce (Term.group ts) rules = none) :
    fullReduceStep rules root (p :: rest)
      = Sum.inr (root, rest ++ (List.range ts.length).map (fun i => p ++ [i])) := by
  simp [fullReduceStep, hget, hred]

/-- C6 witness: with no rules and root `(a b)`, one driver step on the
root position enqueues the positions `[0]` and `[1]` of both children. -/
theorem C6_witness :
    getAt (Term.group [Term.atom "a", Term.atom "b"]) []
      = some (Term.group [Term.atom "a", Term.atom "b"]) ∧
    reduce (Term.group [Term.atom "a", Term.atom "b"]) [] = none ∧
    fullReduceStep [] (Term.group [Term.atom "a", Term.atom "b"]) [[]]
      = Sum.inr (Term.group [Term.atom "a", Term.atom "b"],
          [] ++ (List.range 2).map (fun i => ([] : Path) ++ [i])) :=
  ⟨by decide, by decide,
    C6_theorem [] _ [] [] [Term.atom "a", Term.atom "b"] (by decide) (by decide)⟩

/-- C6 counterexample: the claim says the head `u[0]` is never enqueued and
exactly the children at indices `1..len-1` are.  With no rules and root
`(a b)`, the driver step enqueues `[[0], [1]]`, which contains the head
position `[0]` and differs from the claimed `[[1]]`. -/
theorem C6_counterexample :
    fullReduceStep [] (Term.group [Term.atom "a", Term.atom "b"]) [[]]
      = Sum.inr (Term.group [Term.atom "a", Term.atom "b"], [[0], [1]]) ∧
    ([0] : Path) ∈ ([[0], [1]] : List Path) ∧
    ([[0], [1]] : List Path) ≠ [[1]] :=
  ⟨by decide, by decide, by decide⟩

/-- C7 (amended): rendering produces the name for an Atom or Variable and,
for an Application — nested or at the top level alike — the children's
renderings joined by single spaces and wrapped in parentheses; the reduced
query `+ three one` is therefore printed as `(s (s (s (s 0))))`, with outer
parentheses. -/
theorem C7_theorem :
    (∀ s, render (Term.atom s) = s) ∧
    (∀ s, render (Term.var s) = s) ∧
    (∀ ts, (render (Term.group ts)).data = '(' :: renderList ts ++ [')']) ∧
    render (Term.group [Term.atom "s", Term.group [Term.atom "s",
        Term.group [Term.atom "s", Term.group [Term.atom "s", Term.atom "0"]]]])
      = "(s (s (s (s 0))))" :=
  ⟨fun _ => rfl, fun _ => rfl, fun _ => rfl, by decide⟩

/-- C7 counterexample: the rendering of the normal form of `+ three one`
is `(s (s (s (s 0))))`, with surrounding parentheses at the top level, not
the claimed `s (s (s (s 0)))`. -/
theorem C7_counterexample :
    render (Term.group [Term.atom "s", Term.group [Term.atom "s",
        Term.group [Term.atom "s", Term.group [Term.atom "s", Term.atom "0"]]]])
      = "(s (s (s (s 0))))" ∧
    "(s (s (s (s 0))))" ≠ "s (s (s (s 0)))" :=
  ⟨by decide, by decide⟩

/-- Splitting a position: the subterm at a concatenated path is found by
composing the two lookups. -/
theorem getAt_append : ∀ (p q : Path) (t : Term),
    getAt t (p ++ q) = (getAt t p).bind (fun u => getAt u q) := by
  intro p
  induction p with
  | nil => intro q t; simp only [List.nil_append, getAt, Option.some_bind]
  | cons i p ih =>
      intro q t
      cases t with
      | atom s => rfl
      | var s => rfl
      | group ts =>
          show (match ts[i]? with
                | some c => getAt c (p ++ q)
                | none => none) = _
          cases h : ts[i]? with
          | none => simp [getAt, h]
          | some c => simp [getAt, h, ih q c]

/-- Queue invariant of the driver loop: if every position of the root at
which a rule applies lies below some queued position, then a term returned
by the loop has no position at which a rule applies. -/
theorem fullReduceAux_nf (rules : Rules) : ∀ (n : Nat) (root : Term) (queue : List Path),
    (∀ p u, getAt root p = some u → reduce u rules ≠ none →
        ∃ q ∈ queue, ∃ s, q ++ s = p) →
    ∀ t', fullReduceAux rules n root queue = some t' →
    ∀ p u, getAt t' p = some u → reduce u rules = none := by
  intro n
  induction n with
  | zero => intro root queue _ t' h; exact Option.noConfusion h
  | succ n ih =>
      intro root queue hinv t' h
      cases queue with
      | nil =>
          have h' : some root = some t' := h
          have ht : root = t' := by injection h'
          subst ht
          intro p u hget
          by_contra hred
          rcases hinv p u hget hred with ⟨q, hq, _⟩
          exact absurd hq (List.not_mem_nil q)
      | cons p0 rest =>
          rw [fullReduceAux] at h
          cases hg0 : getAt root p0 with
          | none =>
              rw [show fullReduceStep rules root (p0 :: rest) = Sum.inr (root, rest) from by
                    simp [fullReduceStep, hg0]] at h
              refine ih root rest ?_ t' h
              intro p1 u1 hget1 hred1
              rcases hinv p1 u1 hget1 hred1 with ⟨q, hqmem, s, hqs⟩
              rcases List.mem_cons.mp hqmem with rfl | hqmem
              · exfalso
                subst hqs
                rw [getAt_append, hg0] at hget1
                exact Option.noConfusion hget1
              · exact ⟨q, hqmem, s, hqs⟩
          | some u0 =>
              cases hr0 : reduce u0 rules with
              | some r =>
                  rw [show fullReduceStep rules root (p0 :: rest)
                        = Sum.inr (setAt root p0 r, [[]]) from by
                        simp [fullReduceStep, hg0, hr0]] at h
                  refine ih _ _ ?_ t' h
                  intro p1 u1 _ _
                  exact ⟨[], by simp, p1, rfl⟩
              | none =>
                  cases u0 with
                  | atom a =>
                      rw [show fullReduceStep rules root (p0 :: rest)
                            = Sum.inr (root, rest) from by
                            simp [fullReduceStep, hg0, hr0]] at h
                      refine ih root rest ?_ t' h
                      intro p1 u1 hget1 hred1
                      rcases hinv p1 u1 hget1 hred1 with ⟨q, hqmem, s, hqs⟩
                      rcases List.mem_cons.mp hqmem with rfl | hqmem
                      · exfalso
                        subst hqs
                        rw [getAt_append, hg0] at hget1
                        cases s with
                        | nil =>
                            have : u1 = Term.atom a := by
                              have h1 : some (Term.atom a) = some u1 := hget1
                              injection h1 with h1
                              exact h1.symm
                            exact hred1 (this ▸ hr0)
                        | cons i s' => exact Option.noConfusion hget1
                      · exact ⟨q, hqmem, s, hqs⟩
                  | var v =>
                      rw [show fullReduceStep rules root (p0 :: rest)
                            = Sum.inr (root, rest) from by
                            simp [fullReduceStep, hg0, hr0]] at h
                      refine ih root rest ?_ t' h
                      intro p1 u1 hget1 hred1
                      rcases hinv p1 u1 hget1 hred1 with ⟨q, hqmem, s, hqs⟩
                      rcases List.mem_cons.mp hqmem with rfl | hqmem
                      · exfalso
                        subst hqs
                        rw [getAt_append, hg0] at hget1
                        cases s with
                        | nil =>
                            have : u1 = Term.var v := by
                              have h1 : some (Term.var v) = some u1 := hget1
                              injection h1 with h1
                              exact h1.symm
                            exact hred1 (this ▸ hr0)
                        | cons i s' => exact Option.noConfusion hget1
                      · exact ⟨q, hqmem, s, hqs⟩
                  | group ts =>
                      rw [show fullReduceStep rules root (p0 :: rest)
                            = Sum.inr (root, rest ++ (List.range ts.length).map
                                (fun i => p0 ++ [i])) from by
                            simp [fullReduceStep, hg0, hr0]] at h
                      refine ih _ _ ?_ t' h
                      intro p1 u1 hget1 hred1
                      rcases hinv p1 u1 hget1 hred1 with ⟨q, hqmem, s, hqs⟩
                      rcases List.mem_cons.mp hqmem with rfl | hqmem
                      · cases s with
                        | nil =>
                            exfalso
                            rw [List.append_nil] at hqs
                            subst hqs
                            rw [hg0] at hget1
                            have : u1 = Term.group ts := by
                              injection hget1 with h1
                              exact h1.symm
                            exact hred1 (this ▸ hr0)
                        | cons i s' =>
                            subst hqs
                            rw [getAt_append, hg0] at hget1
                            have hget2 : (match ts[i]? with
                                | some c => getAt c s'
                                | none => none) = some u1 := hget1
                            have hgi : ∃ c, ts[i]? = some c := by
                              revert hget2
                              cases ts[i]? with
                              | none => intro hh; exact Option.noConfusion hh
                              | some c => intro _; exact ⟨c, rfl⟩
                            rcases hgi with ⟨c, hc⟩
                            have hlt : i < ts.length := by
                              rcases List.getElem?_eq_some.mp hc with ⟨hl, _⟩
                              exact hl
                            refine ⟨q ++ [i], ?_, s', by simp⟩
                            refine List.mem_append_right _ ?_
                            exact List.mem_map.mpr ⟨i, List.mem_range.mpr hlt, rfl⟩
                      · exact ⟨q, List.mem_append_left _ hqmem, s, hqs⟩

/-- C3: whenever `full_reduce` terminates and returns a term, no rule
applies at any position of that term — the single-step rewrite fails on the
term itself (position `[]`) and on every subterm. -/
theorem C3_theorem (rules : Rules) (fuel : Nat) (t t' : Term) (p : Path) (u : Term)
    (hfull : full_reduce rules fuel t = some t') (hsub : getAt t' p = some u) :
    reduce u rules = none :=
  fullReduceAux_nf rules fuel t [[]]
    (fun p1 u1 _ _ => ⟨[], by simp, p1, rfl⟩) t' hfull p u hsub

/-- C3 witness: with the single rule `zero = 0`, `full_reduce` turns the
atom `zero` into the atom `0`, and no rule applies to the result. -/
theorem C3_witness :
    full_reduce [("zero", [(Term.atom "zero", Term.atom "0")])] 3 (Term.atom "zero")
      = some (Term.atom "0") ∧
    getAt (Term.atom "0") [] = some (Term.atom "0") ∧
    reduce (Term.atom "0") [("zero", [(Term.atom "zero", Term.atom "0")])] = none :=
  ⟨by decide, by decide,
    C3_theorem _ 3 (Term.atom "zero") (Term.atom "0") [] _ (by decide) (by decide)⟩

/-- C9: a `print`-headed Application with exactly two children reduces by
the built-in to its second child, whatever rules are stored under the key
`print`; with any other number of children it is rewritten through the
user rules under key `print` exactly as any other application. -/
theorem C9_theorem :
    (∀ (rules : Rules) (x : Term),
        reduce (Term.group [Term.atom "print", x]) rules = some x) ∧
    (∀ (rules : Rules) (args : List Term), args.length ≠ 1 →
        reduce (Term.group (Term.atom "print" :: args)) rules
          = tryRulesGroup (rulesGet rules "print")
              (Term.group (Term.atom "print" :: args))) := by
  constructor
  · intro rules x
    simp [reduce]
  · intro rules args h
    simp [reduce, h]

/-- C9 witness: with a user rule `print A = bad` stored under key `print`,
the two-child application `print q` still reduces to `q` by the built-in
(even though the user rule matches it and would produce `bad`), while the
three-child application `print a b` goes through the user rules. -/
theorem C9_witness :
    reduce (Term.group [Term.atom "print", Term.atom "q"])
        [("print", [(Term.group [Term.atom "print", Term.var "A"], Term.atom "bad")])]
      = some (Term.atom "q") ∧
    tryRulesGroup
        (rulesGet [("print", [(Term.group [Term.atom "print", Term.var "A"],
            Term.atom "bad")])] "print")
        (Term.group [Term.atom "print", Term.atom "q"]) = some (Term.atom "bad") ∧
    reduce (Term.group [Term.atom "print", Term.atom "a", Term.atom "b"])
        [("print", [(Term.group [Term.atom "print", Term.var "A"], Term.atom "bad")])]
      = tryRulesGroup
          (rulesGet [("print", [(Term.group [Term.atom "print", Term.var "A"],
              Term.atom "bad")])] "print")
          (Term.group [Term.atom "print", Term.atom "a", Term.atom "b"]) :=
  ⟨C9_theorem.1 _ _, by decide, C9_theorem.2 _ [Term.atom "a", Term.atom "b"] (by decide)⟩

/-- Reading a run of word characters accumulates them onto the pending
word. -/
theorem scanAux_word : ∀ (w cs acc : List Char),
    (∀ c ∈ w, isWordChar c = true) →
    scanAux (w ++ cs) acc = scanAux cs (acc ++ w) := by
  intro w
  induction w with
  | nil => intro cs acc _; rw [List.nil_append, List.append_nil]
  | cons c w ih =>
      intro cs acc hw
      have hc : isWordChar c = true := hw c (List.mem_cons_self _ _)
      rw [List.cons_append]
      show (if isWordChar c = true then scanAux (w ++ cs) (acc ++ [c])
            else flushWord acc
              (if c = '#' then []
               else if c = '(' then Tok.lpar :: scanAux (w ++ cs) []
               else if c = ')' then Tok.rpar :: scanAux (w ++ cs) []
               else if c = '=' then Tok.eq :: scanAux (w ++ cs) []
               else scanAux (w ++ cs) [])) = _
      rw [if_pos hc, ih cs (acc ++ [c]) (fun x hx => hw x (List.mem_cons_of_mem _ hx))]
      simp [List.append_assoc]

/-- When the next character ends any word, scanning with a pending word
first flushes it. -/
theorem scanAux_flush : ∀ (rest : List Char) (w : List Char),
    nonWordStart rest = true →
    scanAux rest w = flushWord w (scanAux rest []) := by
  intro rest w h
  cases rest with
  | nil => rfl
  | cons c cs =>
      have hc : isWordChar c = false := by
        have h' : (!isWordChar c) = true := h
        simpa using h'
      show (if isWordChar c = true then _ else flushWord w _)
            = flushWord w (if isWordChar c = true then _ else flushWord [] _)
      rw [hc]
      simp only [Bool.false_eq_true, if_false]
      rfl

/-- Scanning a valid atom name followed by a non-word character produces
exactly the corresponding `Atom` token. -/
theorem scanAux_name (s : String) (h : validAtomName s = true) (rest : List Char)
    (hr : nonWordStart rest = true) :
    scanAux (s.data ++ rest) [] = Tok.atom s :: scanAux rest [] := by
  obtain ⟨c, cs, hdata, hupper, hword⟩ :
      ∃ c cs, s.data = c :: cs ∧ c.isUpper = false ∧
        ∀ x ∈ c :: cs, isWordChar x = true := by
    revert h
    unfold validAtomName
    cases hd : s.data with
    | nil => intro hh; exact Bool.noConfusion hh
    | cons c cs =>
        intro hh
        rw [Bool.and_eq_true] at hh
        refine ⟨c, cs, rfl, ?_, ?_⟩
        · cases hcu : c.isUpper
          · rfl
          · rw [hcu] at hh
            exact Bool.noConfusion hh.1
        · intro x hx
          exact List.all_eq_true.mp hh.2 x hx
  rw [hdata, scanAux_word _ _ _ hword, scanAux_flush rest _ hr, List.nil_append]
  show mkWord (String.mk (c :: cs)) :: scanAux rest [] = Tok.atom s :: scanAux rest []
  show (if c.isUpper then Tok.var (String.mk (c :: cs))
        else Tok.atom (String.mk (c :: cs))) :: scanAux rest []
        = Tok.atom s :: scanAux rest []
  rw [hupper, if_neg (by simp)]
  rw [← hdata]

/-- `wfList` gives `wfInput` for every member. -/
theorem wfList_forall : ∀ (ts : List Term), wfList ts = true →
    ∀ t ∈ ts, wfInput t = true := by
  intro ts
  induction ts with
  | nil => intro _ t ht; exact absurd ht (List.not_mem_nil t)
  | cons hd tl ih =>
      intro h t ht
      have h' : wfInput hd = true ∧ wfList tl = true := by
        have h2 : (wfInput hd && wfList tl) = true := h
        rw [Bool.and_eq_true] at h2
        exact h2
      rcases List.mem_cons.mp ht with rfl | ht
      · exact h'.1
      · exact ih h'.2 t ht

/-- A well-formed group has a non-empty, pointwise well-formed child
list. -/
theorem wfInput_group (ts : List Term) (h : wfInput (Term.group ts) = true) :
    ts.isEmpty = false ∧ ∀ t ∈ ts, wfInput t = true := by
  have h' : (!ts.isEmpty && wfList ts) = true := h
  rw [Bool.and_eq_true] at h'
  constructor
  · cases hh : ts.isEmpty
    · rfl
    · rw [hh] at h'
      exact Bool.noConfusion h'.1
  · exact wfList_forall ts h'.2

/-- Scanning the space-joined renderings of a non-empty list of terms, up
to a non-word continuation, produces the concatenation of their token
lists (list-level step of the tokenizer-renderer correspondence). -/
theorem scan_renderList : ∀ (ts : List Term),
    (∀ t ∈ ts, wfInput t = true ∧ ∀ rest, nonWordStart rest = true →
        scanAux (renderChars t ++ rest) [] = toks t ++ scanAux rest []) →
    ts ≠ [] → ∀ r, nonWordStart r = true →
    scanAux (renderList ts ++ r) [] = toksList ts ++ scanAux r [] := by
  intro ts
  induction ts with
  | nil => intro _ hne; exact absurd rfl hne
  | cons t tl ih =>
      intro hp _ r hr
      cases tl with
      | nil =>
          have h0 := (hp t (List.mem_cons_self _ _)).2 r hr
          show scanAux (renderChars t ++ r) [] = (toks t ++ []) ++ scanAux r []
          rw [h0, List.append_nil]
      | cons t2 tl' =>
          have h0 := (hp t (List.mem_cons_self _ _)).2
            (' ' :: (renderList (t2 :: tl') ++ r)) (by rfl)
          have h1 := ih (fun x hx => hp x (List.mem_cons_of_mem _ hx))
            (by simp) r hr
          show scanAux ((renderChars t ++ ' ' :: renderList (t2 :: tl')) ++ r) []
              = (toks t ++ toksList (t2 :: tl')) ++ scanAux r []
          rw [List.append_assoc, List.cons_append, h0]
          have hskip : scanAux (' ' :: (renderList (t2 :: tl') ++ r)) []
              = scanAux (renderList (t2 :: tl') ++ r) [] := by rfl
          rw [hskip, h1, List.append_assoc]

/-- Scanning the rendering of a well-formed variable-free term, up to a
non-word continuation, produces exactly its token list. -/
theorem scan_renderChars : ∀ (t : Term), wfInput t = true →
    ∀ rest, nonWordStart rest = true →
    scanAux (renderChars t ++ rest) [] = toks t ++ scanAux rest [] := by
  intro t
  induction t using Term.my_ind with
  | ha s => intro hwf rest hr; exact scanAux_name s hwf rest hr
  | hv s => intro hwf; exact Bool.noConfusion hwf
  | hg ts ih =>
      intro hwf rest hr
      rcases wfInput_group ts hwf with ⟨hne, hwts⟩
      have hne' : ts ≠ [] := by
        cases ts
        · exact Bool.noConfusion hne
        · exact List.cons_ne_nil _ _
      show scanAux (('(' :: renderList ts ++ [')']) ++ rest) []
          = (Tok.lpar :: toksList ts ++ [Tok.rpar]) ++ scanAux rest []
      simp only [List.cons_append, List.append_assoc, List.singleton_append,
        List.nil_append]
      have hopen : scanAux ('(' :: (renderList ts ++ ')' :: rest)) []
          = Tok.lpar :: scanAux (renderList ts ++ ')' :: rest) [] := rfl
      rw [hopen, scan_renderList ts
        (fun x hx => ⟨hwts x hx, ih x hx (hwts x hx)⟩) hne' (')' :: rest) (by rfl)]
      rfl

/-- Feeding the token lists of a list of well-formed terms to the parser
appends those terms to the current group (list-level step of the
parser-token correspondence). -/
theorem parseAux_toksList : ∀ (ts : List Term),
    (∀ t ∈ ts, ∀ (rest : List Tok) (chain : List (List Term)) (group : List Term),
        parseAux .input (toks t ++ rest) chain group
          = parseAux .input rest chain (group ++ [t])) →
    ∀ (rest : List Tok) (chain : List (List Term)) (group : List Term),
    parseAux .input (toksList ts ++ rest) chain group
      = parseAux .input rest chain (group ++ ts) := by
  intro ts
  induction ts with
  | nil =>
      intro _ rest chain group
      rw [show toksList [] = [] from rfl, List.nil_append, List.append_nil]
  | cons t tl ih =>
      intro hp rest chain group
      show parseAux .input ((toks t ++ toksList tl) ++ rest) chain group = _
      rw [List.append_assoc, hp t (List.mem_cons_self _ _),
        ih (fun x hx => hp x (List.mem_cons_of_mem _ hx)), List.append_assoc]
      rfl

/-- Feeding the tokens of a well-formed variable-free term to the parser in
`Input` mode appends that term to the current group, whatever the chain
is. -/
theorem parseAux_toks : ∀ (t : Term), wfInput t = true →
    ∀ (rest : List Tok) (chain : List (List Term)) (group : List Term),
    parseAux .input (toks t ++ rest) chain group
      = parseAux .input rest chain (group ++ [t]) := by
  intro t
  induction t using Term.my_ind with
  | ha s => intro _ rest chain group; rfl
  | hv s => intro hwf; exact Bool.noConfusion hwf
  | hg ts ih =>
      intro hwf rest chain group
      rcases wfInput_group ts hwf with ⟨hne, hwts⟩
      show parseAux .input ((Tok.lpar :: toksList ts ++ [Tok.rpar]) ++ rest) chain group
          = _
      simp only [List.cons_append, List.append_assoc, List.singleton_append,
        List.nil_append]
      have hopen : parseAux .input (Tok.lpar :: (toksList ts ++ Tok.rpar :: rest))
            chain group
          = parseAux .input (toksList ts ++ Tok.rpar :: rest) (group :: chain) [] := by
        simp [parseAux]
      rw [hopen, parseAux_toksList ts (fun x hx => ih x hx (hwts x hx))
        (Tok.rpar :: rest) (group :: chain) []]
      show parseAux .input (Tok.rpar :: rest) (group :: chain) ts = _
      simp [parseAux, hne]

/-- C8: parsing the rendering of any Term that conforms to the data model
and contains no Variable (valid atom names, non-empty applications)
succeeds in `Input` mode and returns that very Term, with only the final
end-of-line token left unconsumed. -/
theorem C8_theorem (t : Term) (h : wfInput t = true) :
    parse_term (tokenizeLine (render t)) .input = .ok (t, [Tok.nl]) := by
  have hscan : scanLine (render t).data = toks t := by
    have h2 := scan_renderChars t h [] (by rfl)
    rw [List.append_nil] at h2
    show scanAux (renderChars t) [] = toks t
    rw [h2]
    show toks t ++ [] = toks t
    exact List.append_nil _
  show parseAux .input (tokenizeLine (render t)) [] [] = .ok (t, [Tok.nl])
  rw [show tokenizeLine (render t) = scanLine (render t).data ++ [Tok.nl] from rfl,
    hscan, parseAux_toks t h [Tok.nl] [] []]
  rfl

/-- C8 witness: the round trip on the concrete term `(f (g x))`. -/
theorem C8_witness :
    wfInput (Term.group [Term.atom "f", Term.group [Term.atom "g", Term.atom "x"]])
      = true ∧
    parse_term (tokenizeLine (render (Term.group [Term.atom "f",
        Term.group [Term.atom "g", Term.atom "x"]]))) .input
      = .ok (Term.group [Term.atom "f", Term.group [Term.atom "g", Term.atom "x"]],
          [Tok.nl]) :=
  ⟨by decide, C8_theorem _ (by decide)⟩

/-- C10: loading is not atomic — whenever `parse_rules` stops with a syntax
error, `load` returns `None` while the caller's rule set keeps every rule
added before the error.  Concretely, on the token stream of the two lines
`a = b` and `)`, the rule `a → b` is added before the error on the second
line is reported, and `load` returns `None` next to the partially extended
rule set. -/
theorem C10_theorem :
    (∀ (tokens : List Tok) (rules : Rules) (e : PErr) (r' : Rules),
        parse_rules tokens rules = .error (e, r') → load tokens rules = (none, r')) ∧
    (parse_rules (tokenizeLine "a = b" ++ tokenizeLine ")") []
        = .error (.unexpected Tok.rpar, [("a", [(Term.atom "a", Term.atom "b")])]) ∧
      load (tokenizeLine "a = b" ++ tokenizeLine ")") []
        = (none, [("a", [(Term.atom "a", Term.atom "b")])])) := by
  refine ⟨?_, by decide, by decide⟩
  intro tokens rules e r' h
  simp [load, h]

/-- C10 witness: the general clause applied to the concrete erroring token
stream. -/
theorem C10_witness :
    load (tokenizeLine "a = b" ++ tokenizeLine ")") []
      = (none, [("a", [(Term.atom "a", Term.atom "b")])]) :=
  C10_theorem.1 _ _ (.unexpected Tok.rpar) _ (by decide)

end Coral
